import Mathlib

/-!
Verification development for the download task manager
(`internal/manager`, `internal/model`, `internal/download`, `internal/api`).

The Go code is shallowly embedded: the manager's task map becomes an
association list, the bounded job channel becomes a list of jobs (with a
separate capacity-aware model where blocking matters), wall-clock times
become `Nat` parameters, and the nondeterministic `util.GenerateID` becomes
an explicit `id` argument.  Statuses are the exact strings of the source;
note that the source spells "in‑progress" with U+2011 NON-BREAKING HYPHEN.
-/

set_option autoImplicit false

namespace DM

/-- `model.FileState` (internal/model/task.go): one URL's download record.
Go's zero value for the optional `Error` field is the empty string. -/
structure FileState where
  url : String
  status : String
  error : String
  deriving DecidableEq, Repr

/-- `model.Task` (internal/model/task.go).  Timestamps are abstracted to
`Nat` instants. -/
structure Task where
  id : String
  files : List FileState
  status : String
  createdAt : Nat
  updatedAt : Nat
  deriving DecidableEq, Repr

/-- `manager.Job` (part_001 lines 20-23): a (task id, file index) work item.
The index is `Int` because Go's `int` is signed and the code guards against
negative indices. -/
structure Job where
  taskID : String
  fileIndex : Int
  deriving DecidableEq, Repr

/-- `manager.Manager` (part_001 lines 28-34).  The Go `map[string]*model.Task`
is modelled as an association list (first binding wins on lookup), the
buffered channel `jobs` as the list of currently queued jobs, and the
channel's capacity is carried in `queueSize`. -/
structure Manager where
  tasks : List (String × Task)
  jobs : List Job
  draining : Bool
  queueSize : Nat
  deriving DecidableEq, Repr

/-- `manager.NewManager` (part_001 lines 38-43): empty task map, empty queue. -/
def NewManager (queueSize : Nat) : Manager :=
  { tasks := [], jobs := [], draining := false, queueSize := queueSize }

/-- Map lookup `m.tasks[taskID]` on the association-list model. -/
def lookupTask : List (String × Task) → String → Option Task
  | [], _ => none
  | (k, t) :: rest, id => if k = id then some t else lookupTask rest id

/-- Map store `m.tasks[id] = t` on the association-list model: replaces the
binding when the key is present, otherwise appends it. -/
def storeTask : List (String × Task) → String → Task → List (String × Task)
  | [], id, t => [(id, t)]
  | (k, u) :: rest, id, t =>
    if k = id then (id, t) :: rest else (k, u) :: storeTask rest id t

/-- In-place update `task.Files[i] = g task.Files[i]` of one slice element;
out-of-range indices leave the list unchanged (the Go callers always check
bounds first). -/
def modifyFile : List FileState → Nat → (FileState → FileState) → List FileState
  | [], _, _ => []
  | f :: fs, 0, g => g f :: fs
  | f :: fs, i + 1, g => f :: modifyFile fs i g

/-- Bounds-checked read `task.Files[i]`; the default is never reached by the
embedded callers because they test the bounds first. -/
def fileAt (fs : List FileState) (i : Nat) : FileState :=
  (fs[i]?).getD { url := "", status := "", error := "" }

/-- The aggregate-status recomputation loop of `Manager.updateFileState`
(part_001 lines 181-200): `allDone` iff every file's status is "completed",
`anyErrors` iff some file's status is "error". -/
def recomputeStatus (files : List FileState) : String :=
  let allDone := files.all fun f => f.status == "completed"
  let anyErrors := files.any fun f => f.status == "error"
  if allDone then
    if anyErrors then "completed_with_errors" else "completed"
  else "in‑progress"

/-- `Manager.updateFileState` (part_001 lines 171-201): no-op for an unknown
task or an out-of-range index; otherwise writes the file's status and error
message, bumps `UpdatedAt`, and recomputes the aggregate status. -/
def Manager.updateFileState (m : Manager) (taskID : String) (index : Int)
    (status errMsg : String) (now : Nat) : Manager :=
  match lookupTask m.tasks taskID with
  | none => m
  | some task =>
    if index < 0 ∨ (task.files.length : Int) ≤ index then m
    else
      let files := modifyFile task.files index.toNat
        fun f => { f with status := status, error := errMsg }
      let task := { task with
        files := files
        updatedAt := now
        status := recomputeStatus files }
      { m with tasks := storeTask m.tasks taskID task }

/-- `Manager.enqueueJob` (part_001 lines 80-92): for a known task and an
in-range index whose file is not "completed", sets the file back to
"pending", bumps `UpdatedAt` and appends the job to the queue.  The
channel send `m.jobs <- Job{...}` is modelled as an append; its blocking
behaviour is modelled separately where it matters. -/
def Manager.enqueueJob (m : Manager) (taskID : String) (fileIndex : Int)
    (now : Nat) : Manager :=
  match lookupTask m.tasks taskID with
  | none => m
  | some task =>
    if fileIndex < 0 ∨ (task.files.length : Int) ≤ fileIndex then m
    else if (fileAt task.files fileIndex.toNat).status ≠ "completed" then
      let task := { task with
        files := modifyFile task.files fileIndex.toNat
          fun f => { f with status := "pending" }
        updatedAt := now }
      { m with
        tasks := storeTask m.tasks taskID task
        jobs := m.jobs ++ [{ taskID := taskID, fileIndex := fileIndex }] }
    else m

/-- The loop `for idx := range files { m.enqueueJob(t.ID, idx) }` of
`Manager.AddTask` (part_001 lines 71-73), enqueueing indices
`i, i+1, ..., i+k-1` in order. -/
def Manager.enqueueFrom (now : Nat) (taskID : String) :
    Manager → Nat → Nat → Manager
  | m, _, 0 => m
  | m, i, k + 1 =>
    Manager.enqueueFrom now taskID (m.enqueueJob taskID (i : Int) now) (i + 1) k

/-- `Manager.AddTask` (part_001 lines 50-76): rejects an empty URL list,
otherwise builds one pending `FileState` per URL, stores the task and (when
not draining) enqueues one job per file; the freshly generated id and the
current instant are explicit parameters.  Returns the task (Go returns a
pointer to the stored task). -/
def Manager.AddTask (m : Manager) (urls : List String) (id : String)
    (now : Nat) : Except String (Manager × Task) :=
  if urls.length = 0 then
    .error "task must contain at least one URL"
  else
    let files := urls.map fun u => { url := u, status := "pending", error := "" : FileState }
    let t : Task :=
      { id := id, files := files, status := "pending", createdAt := now, updatedAt := now }
    let m := { m with tasks := storeTask m.tasks id t }
    let m := if m.draining then m else Manager.enqueueFrom now id m 0 files.length
    .ok (m, t)

/-- The deep copy made by `Manager.GetTask` (part_001 lines 103-107): a
fresh struct with a freshly allocated `Files` slice, rebuilt field by
field. -/
def deepCopyTask (t : Task) : Task :=
  { id := t.id
    files := t.files.map fun f => { url := f.url, status := f.status, error := f.error }
    status := t.status
    createdAt := t.createdAt
    updatedAt := t.updatedAt }

/-- `Manager.GetTask` (part_001 lines 96-108): `none` for an unknown id,
otherwise a deep copy of the stored task. -/
def Manager.GetTask (m : Manager) (id : String) : Option Task :=
  (lookupTask m.tasks id).map deepCopyTask

/-- `Manager.processJob` (part_001 lines 132-166).  The download attempt's
outcome is an explicit parameter: `none` models success of
`download.DownloadWithContext`, `some msg` models any failure (including
the `os.MkdirAll` error path), carrying `err.Error()`.  A stale job
(unknown task, out-of-range index, or an already "completed" file) returns
early without touching anything; otherwise the file and the task are marked
"in‑progress" under the lock and the outcome is written back through
`updateFileState`. -/
def Manager.processJob (m : Manager) (job : Job) (result : Option String)
    (nowStart nowEnd : Nat) : Manager :=
  match lookupTask m.tasks job.taskID with
  | none => m
  | some task =>
    if job.fileIndex < 0 ∨ (task.files.length : Int) ≤ job.fileIndex
        ∨ (fileAt task.files job.fileIndex.toNat).status = "completed" then m
    else
      let task1 := { task with
        files := modifyFile task.files job.fileIndex.toNat
          fun f => { f with status := "in‑progress" }
        updatedAt := nowStart
        status := "in‑progress" }
      let m1 := { m with tasks := storeTask m.tasks job.taskID task1 }
      match result with
      | none => m1.updateFileState job.taskID job.fileIndex "completed" "" nowEnd
      | some msg => m1.updateFileState job.taskID job.fileIndex "error" msg nowEnd

/-- The per-file body of `Manager.LoadFromSnapshot`'s inner loop (part_001
lines 280-286), run over the files of one task starting at index `idx`:
every file whose status is not "completed" is reset to pending with its
error cleared and contributes one job (in index order). -/
def loadFiles (taskID : String) : List FileState → Int → List FileState × List Job
  | [], _ => ([], [])
  | f :: fs, idx =>
    let rest := loadFiles taskID fs (idx + 1)
    if f.status ≠ "completed" then
      ({ f with status := "pending", error := "" } :: rest.1,
        { taskID := taskID, fileIndex := idx } :: rest.2)
    else
      (f :: rest.1, rest.2)

/-- The per-task body of `Manager.LoadFromSnapshot`'s outer loop (part_001
lines 276-288): resets non-completed files, bumps `UpdatedAt`, and forces
the aggregate status to "in‑progress" unconditionally (line 287 runs for
every loaded task). -/
def loadTask (id : String) (t : Task) (now : Nat) : Task × List Job :=
  let loaded := loadFiles id t.files 0
  ({ t with files := loaded.1, status := "in‑progress", updatedAt := now }, loaded.2)

/-- `Manager.LoadFromSnapshot` (part_001 lines 259-290), given the decoded
snapshot contents (the map is modelled as an association list in iteration
order).  Channel sends are modelled as appends; the capacity-aware model
`Manager.LoadFromSnapshotB` below accounts for blocking. -/
def Manager.LoadFromSnapshot : Manager → List (String × Task) → Nat → Manager
  | m, [], _ => m
  | m, (id, t) :: rest, now =>
    let loaded := loadTask id t now
    Manager.LoadFromSnapshot
      { m with tasks := storeTask m.tasks id loaded.1, jobs := m.jobs ++ loaded.2 }
      rest now

/-- The first, locked phase of `Manager.processJob` (part_001 lines 132-147)
in isolation: the state the store is left in at the moment the lock is
released, while the download itself is still in flight.  This intermediate
state is externally observable (e.g. through `GetTask`). -/
def Manager.processJobMark (m : Manager) (job : Job) (nowStart : Nat) : Manager :=
  match lookupTask m.tasks job.taskID with
  | none => m
  | some task =>
    if job.fileIndex < 0 ∨ (task.files.length : Int) ≤ job.fileIndex
        ∨ (fileAt task.files job.fileIndex.toNat).status = "completed" then m
    else
      { m with tasks := storeTask m.tasks job.taskID { task with
          files := modifyFile task.files job.fileIndex.toNat
            fun f => { f with status := "in‑progress" }
          updatedAt := nowStart
          status := "in‑progress" } }

/-- The write-back of `Manager.processJob`'s second phase (part_001 lines
161-165): `none` models a successful download, `some msg` a failed one. -/
def Manager.processJobFinish (m : Manager) (job : Job) (result : Option String)
    (nowEnd : Nat) : Manager :=
  match result with
  | none => m.updateFileState job.taskID job.fileIndex "completed" "" nowEnd
  | some msg => m.updateFileState job.taskID job.fileIndex "error" msg nowEnd

/-- One send on the bounded `jobs` channel while no consumer is running:
it completes exactly when the buffer has room, and blocks forever
otherwise (`none`). -/
def enqueueB (cap : Nat) (jobs : List Job) (j : Job) : Option (List Job) :=
  if jobs.length < cap then some (jobs ++ [j]) else none

/-- Capacity-aware model of `Manager.LoadFromSnapshot`'s inner file loop:
identical to `loadFiles`, except that each channel send goes through
`enqueueB` (the queue contents are threaded through), and `none` propagates
a blocked send. -/
def loadFilesB (cap : Nat) (taskID : String) :
    List FileState → Int → List Job → Option (List FileState × List Job)
  | [], _, js => some ([], js)
  | f :: fs, idx, js =>
    if f.status ≠ "completed" then
      match enqueueB cap js { taskID := taskID, fileIndex := idx } with
      | none => none
      | some js' =>
        (loadFilesB cap taskID fs (idx + 1) js').map fun r =>
          ({ f with status := "pending", error := "" } :: r.1, r.2)
    else
      (loadFilesB cap taskID fs (idx + 1) js).map fun r => (f :: r.1, r.2)

/-- Capacity-aware model of `Manager.LoadFromSnapshot` (part_001 lines
259-290): the channel sends at line 284 happen before `StartWorkers` is
called (main.go lines 36-38), so with no consumer a send on a full queue
blocks forever; `none` models that recovery never returns. -/
def Manager.LoadFromSnapshotB : Manager → List (String × Task) → Nat → Option Manager
  | m, [], _ => some m
  | m, (id, t) :: rest, now =>
    match loadFilesB m.queueSize id t.files 0 m.jobs with
    | none => none
    | some r =>
      Manager.LoadFromSnapshotB
        { m with
          tasks := storeTask m.tasks id
            { t with files := r.1, status := "in‑progress", updatedAt := now }
          jobs := r.2 }
        rest now

/-- Number of files of one task that a snapshot load re-queues (those whose
status is not "completed"). -/
def countNotCompleted (files : List FileState) : Nat :=
  (files.filter fun f => f.status ≠ "completed").length

/-- Total number of jobs a snapshot load tries to enqueue. -/
def snapshotJobCount (snap : List (String × Task)) : Nat :=
  (snap.map fun p => countNotCompleted p.2.files).sum

/-- The white-space set of Go's `strings.TrimSpace` (`unicode.IsSpace`),
restricted to the Latin-1 range it special-cases; rarer Unicode space
code points are not modelled. -/
def isSpaceChar (c : Char) : Bool :=
  c = ' ' || c = '\t' || c = '\n' || c = (Char.ofNat 0x0B) || c = (Char.ofNat 0x0C) ||
    c = '\r' || c = (Char.ofNat 0x85) || c = (Char.ofNat 0xA0)

/-- Go's `strings.TrimSpace`: drop leading and trailing white space. -/
def trimSpace (s : String) : String :=
  (((s.toList.dropWhile isSpaceChar).reverse.dropWhile isSpaceChar).reverse).asString

/-- The URL cleaning loop of `api.NewCreateTaskHandler` (part_003 lines
37-43): trim whitespace, drop entries that are empty afterwards. -/
def cleanURLs (urls : List String) : List String :=
  (urls.map trimSpace).filter fun s => s ≠ ""

/-- `api.NewCreateTaskHandler`'s successful-decode path (part_003 lines
37-48): clean the URLs, then `Manager.AddTask`. -/
def createTask (m : Manager) (rawURLs : List String) (id : String)
    (now : Nat) : Except String (Manager × Task) :=
  m.AddTask (cleanURLs rawURLs) id now

/-! ### Model of Go's `net/url.Parse`, restricted to what `DeriveFileName`
consumes: whether parsing fails, and the decoded `Path` field.  Modelled
from the Go standard library (not part of this repository): fragment and
query are cut at the first `#` / `?`, the scheme is an alphanumeric prefix
before `:`, a `//authority` component is split off before the path, and the
path is percent-decoded with `%` requiring two hex digits.  Simplifications:
host/port validation beyond percent-escape checking is not modelled, and
decoded bytes are read as code points. -/

/-- Split a character list at the first occurrence of `target`
(`strings.Cut`): the part before, and (when found) the part after. -/
def breakAtChar (target : Char) : List Char → List Char × Option (List Char)
  | [] => ([], none)
  | c :: cs =>
    if c = target then ([], some cs)
    else
      let r := breakAtChar target cs
      (c :: r.1, r.2)

/-- Go's `strings.Split` for a one-character separator (the only form the
code uses): the substrings between occurrences of `sep`; never the empty
list. -/
def splitOnChar (sep : Char) : List Char → List (List Char)
  | [] => [[]]
  | c :: cs =>
    if c = sep then [] :: splitOnChar sep cs
    else
      match splitOnChar sep cs with
      | [] => [[c]]
      | g :: gs => (c :: g) :: gs

/-- Go's `stringContainsCTLByte`: any byte below 0x20 or equal to 0x7f
(such bytes only occur as single-byte code points in UTF-8). -/
def containsCTLByte (s : List Char) : Bool :=
  s.any fun c => c.toNat < 0x20 || c.toNat == 0x7f

/-- ASCII letter, as in Go's `getScheme`. -/
def isAlphaChar (c : Char) : Bool :=
  ('a' ≤ c && c ≤ 'z') || ('A' ≤ c && c ≤ 'Z')

/-- The non-initial scheme characters accepted by Go's `getScheme`. -/
def isSchemeExtra (c : Char) : Bool :=
  ('0' ≤ c && c ≤ '9') || c == '+' || c == '-' || c == '.'

/-- Scan loop of Go's `getScheme`: returns the scheme (possibly empty when
the URL has none) and the remainder, or `none` on the error
"missing protocol scheme" (a `:` at position 0). -/
def getSchemeLoop (orig : List Char) : List Char → Nat → Option (String × List Char)
  | [], _ => some ("", orig)
  | c :: rest, i =>
    if isAlphaChar c then getSchemeLoop orig rest (i + 1)
    else if isSchemeExtra c then
      if i = 0 then some ("", orig) else getSchemeLoop orig rest (i + 1)
    else if c = ':' then
      if i = 0 then none
      else some (String.mk (orig.take i), orig.drop (i + 1))
    else some ("", orig)

/-- Go's `getScheme`. -/
def getScheme (s : List Char) : Option (String × List Char) :=
  getSchemeLoop s s 0

/-- Hexadecimal digit, as in Go's `ishex`. -/
def isHexDigit (c : Char) : Bool :=
  ('0' ≤ c && c ≤ '9') || ('a' ≤ c && c ≤ 'f') || ('A' ≤ c && c ≤ 'F')

/-- Value of a hexadecimal digit, as in Go's `unhex`. -/
def hexVal (c : Char) : Nat :=
  if '0' ≤ c && c ≤ '9' then c.toNat - '0'.toNat
  else if 'a' ≤ c && c ≤ 'f' then c.toNat - 'a'.toNat + 10
  else c.toNat - 'A'.toNat + 10

/-- Go's `unescape` for the path/fragment modes: every `%` must be followed
by two hex digits ("invalid URL escape" otherwise, modelled as `none`);
other characters pass through. -/
def decodePercent : List Char → Option (List Char)
  | [] => some []
  | '%' :: a :: b :: rest =>
    if isHexDigit a && isHexDigit b then
      (decodePercent rest).map fun cs => Char.ofNat (16 * hexVal a + hexVal b) :: cs
    else none
  | '%' :: _ => none
  | c :: rest => (decodePercent rest).map fun cs => c :: cs

/-- Go's `URL.setPath`: store the percent-decoded path. -/
def decodePath (s : List Char) : Option String :=
  (decodePercent s).map List.asString

/-- The error / `Path` outcome of Go's `net/url.Parse` (see the section
comment above for scope): `none` when `url.Parse` returns an error,
`some p` when it succeeds with `u.Path = p` (the empty path covers both
authority-only and opaque URLs). -/
def urlParsePath (rawURL : String) : Option String :=
  let cut := breakAtChar '#' rawURL.toList
  let fragOK := match cut.2 with
    | none => true
    | some frag => (decodePercent frag).isSome
  if !fragOK then none
  else if containsCTLByte cut.1 then none
  else
    match getScheme cut.1 with
    | none => none
    | some sr =>
      let scheme := sr.1
      let rest := (breakAtChar '?' sr.2).1
      match rest with
      | '/' :: '/' :: afterSlashes =>
        if scheme = "" ∧ afterSlashes.head? = some '/' then
          decodePath rest
        else
          let auth := afterSlashes.takeWhile fun c => c ≠ '/'
          let restPath := afterSlashes.dropWhile fun c => c ≠ '/'
          if (decodePercent auth).isNone then none
          else decodePath restPath
      | '/' :: _ => decodePath rest
      | _ =>
        if scheme ≠ "" then some ""
        else if (rest.takeWhile fun c => c ≠ '/').contains ':' then none
        else decodePath rest

/-- `download.DeriveFileName` (part_000 lines 317-333): the last segment of
the parsed URL's path, truncated at `?`, with the fallback `file_<index>`
when parsing fails, the path is empty or "/", or the segment is empty.
`fmt.Sprintf("%d", index)` matches `toString` on `Int`. -/
def DeriveFileName (rawURL : String) (index : Int) : String :=
  match urlParsePath rawURL with
  | none => "file_" ++ toString index
  | some path =>
    if path = "" ∨ path = "/" then "file_" ++ toString index
    else
      let segments := splitOnChar '/' path.toList
      let name := segments.getLastD []
      let name := (breakAtChar '?' name).1
      if name = [] then "file_" ++ toString index else name.asString

/-! ### Spec-side reference definitions (stated from the spec's words, for
comparison with the code). -/

/-- The spec's aggregate-status derivation rule (§3), stated from the
spec's words under the reading its §4.2 failure semantics and scenario 1
require: every file terminal (completed or error) with at least one error →
completed_with_errors; all completed → completed; otherwise in-progress
(the spec's enumerations spell this with the ASCII hyphen). -/
def specDerivedStatus (files : List FileState) : String :=
  if files.all fun f => f.status == "completed" || f.status == "error" then
    if files.any fun f => f.status == "error" then "completed_with_errors"
    else "completed"
  else "in-progress"

/-- The spec's filename rule (§6/§8), stated from its words: the final
segment of the path, with any query string stripped. -/
def lastSegmentQueryStripped (path : String) : String :=
  ((breakAtChar '?' ((splitOnChar '/' path.toList).getLastD [])).1).asString

/-- The indices (in order) of the files a snapshot load re-queues, starting
the count at `idx`. -/
def notCompletedIndices : List FileState → Int → List Int
  | [], _ => []
  | f :: fs, idx =>
    if f.status ≠ "completed" then idx :: notCompletedIndices fs (idx + 1)
    else notCompletedIndices fs (idx + 1)

/-- The per-file status strings the code writes, with the source's U+2011
spelling of "in‑progress". -/
def validFileStatus (s : String) : Prop :=
  s = "pending" ∨ s = "in‑progress" ∨ s = "completed" ∨ s = "error"

/-- The task status strings the code writes, with the source's U+2011
spelling of "in‑progress". -/
def validTaskStatus (s : String) : Prop :=
  s = "pending" ∨ s = "in‑progress" ∨ s = "completed" ∨ s = "completed_with_errors"

/-- Every stored task's status, and every stored file's status, is one of
the code's status strings. -/
def StatusInv (m : Manager) : Prop :=
  ∀ p ∈ m.tasks, validTaskStatus p.2.status ∧ ∀ f ∈ p.2.files, validFileStatus f.status

/-! ### Reachable states of the store.
An `Op` is one externally triggered, atomically locked state change of the
manager; `runOps` is the state after a sequence of them starting from
`NewManager` (main.go line 30). -/

/-- One atomic state change of the manager: task creation through the HTTP
handler, the locked mark phase of a worker's `processJob`, its write-back
phase, a whole `processJob`, or a snapshot load. -/
inductive Op where
  | create (rawURLs : List String) (id : String) (now : Nat)
  | mark (job : Job) (now : Nat)
  | finish (job : Job) (result : Option String) (now : Nat)
  | process (job : Job) (result : Option String) (nowStart nowEnd : Nat)
  | load (snap : List (String × Task)) (now : Nat)
  deriving Repr

/-- Apply one `Op` (a failed `createTask` leaves the store untouched). -/
def applyOp (m : Manager) : Op → Manager
  | .create raw id now =>
    match createTask m raw id now with
    | .ok r => r.1
    | .error _ => m
  | .mark job now => m.processJobMark job now
  | .finish job result now => m.processJobFinish job result now
  | .process job result t1 t2 => m.processJob job result t1 t2
  | .load snap now => m.LoadFromSnapshot snap now

/-- The manager after a sequence of operations from a fresh start. -/
def runOps (queueSize : Nat) (ops : List Op) : Manager :=
  ops.foldl applyOp (NewManager queueSize)

/-- A concrete one-file task, used to witness the frame theorems at a
concrete input. -/
def sampleTask : Task :=
  { id := "t", files := [{ url := "u", status := "pending", error := "" }],
    status := "pending", createdAt := 4, updatedAt := 4 }

/-- A concrete one-task store, used to witness the frame theorems at a
concrete input. -/
def sampleManager : Manager :=
  { tasks := [("t", sampleTask)], jobs := [], draining := false, queueSize := 5 }

/-! ### Helper lemmas: association list, slice update, status recompute -/

theorem lookup_storeTask (ts : List (String × Task)) (id id' : String) (t : Task) :
    lookupTask (storeTask ts id t) id' =
      if id = id' then some t else lookupTask ts id' := by
  induction ts with
  | nil => by_cases h : id = id' <;> simp [storeTask, lookupTask, h]
  | cons p rest ih =>
    obtain ⟨k, u⟩ := p
    by_cases hk : k = id
    · subst hk
      by_cases h' : k = id' <;> simp [storeTask, lookupTask, h']
    · by_cases h' : k = id'
      · subst h'
        have : ¬ id = k := fun h => hk h.symm
        simp [storeTask, lookupTask, hk, this]
      · simp [storeTask, lookupTask, hk, h', ih]

theorem storeTask_self {ts : List (String × Task)} {id : String} {t : Task}
    (h : lookupTask ts id = some t) : storeTask ts id t = ts := by
  induction ts with
  | nil => simp [lookupTask] at h
  | cons p rest ih =>
    obtain ⟨k, u⟩ := p
    by_cases hk : k = id
    · subst hk
      simp [lookupTask] at h
      simp [storeTask, h]
    · simp [lookupTask, hk] at h
      simp [storeTask, hk, ih h]

theorem lookupTask_mem {ts : List (String × Task)} {id : String} {t : Task}
    (h : lookupTask ts id = some t) : (id, t) ∈ ts := by
  induction ts with
  | nil => simp [lookupTask] at h
  | cons p rest ih =>
    obtain ⟨k, u⟩ := p
    by_cases hk : k = id
    · subst hk
      simp [lookupTask] at h
      simp [h]
    · simp [lookupTask, hk] at h
      exact List.mem_cons_of_mem _ (ih h)

theorem mem_storeTask {ts : List (String × Task)} {id : String} {t : Task}
    {p : String × Task} (h : p ∈ storeTask ts id t) : p = (id, t) ∨ p ∈ ts := by
  induction ts with
  | nil => simp [storeTask] at h; simp [h]
  | cons q rest ih =>
    obtain ⟨k, u⟩ := q
    by_cases hk : k = id
    · subst hk
      simp [storeTask] at h
      rcases h with h | h
      · exact Or.inl h
      · exact Or.inr (List.mem_cons_of_mem _ h)
    · simp [storeTask, hk] at h
      rcases h with h | h
      · simp [h]
      · rcases ih h with h' | h'
        · exact Or.inl h'
        · exact Or.inr (List.mem_cons_of_mem _ h')

theorem modifyFile_length (fs : List FileState) (i : Nat) (g : FileState → FileState) :
    (modifyFile fs i g).length = fs.length := by
  induction fs generalizing i with
  | nil => rfl
  | cons f fs ih => cases i <;> simp [modifyFile, ih]

theorem modifyFile_getElem? (fs : List FileState) (i j : Nat) (g : FileState → FileState) :
    (modifyFile fs i g)[j]? = if i = j then (fs[j]?).map g else fs[j]? := by
  induction fs generalizing i j with
  | nil => cases i <;> cases j <;> simp [modifyFile]
  | cons f fs ih =>
    cases i with
    | zero => cases j <;> simp [modifyFile]
    | succ i =>
      cases j with
      | zero => simp [modifyFile]
      | succ j => simpa [modifyFile] using ih i j

theorem modifyFile_id {fs : List FileState} {g : FileState → FileState} (i : Nat)
    (h : ∀ f ∈ fs, g f = f) : modifyFile fs i g = fs := by
  induction fs generalizing i with
  | nil => rfl
  | cons f fs ih =>
    cases i with
    | zero => simp [modifyFile, h f (by simp)]
    | succ i => simp [modifyFile, ih i fun f hf => h f (List.mem_cons_of_mem _ hf)]

theorem mem_modifyFile {fs : List FileState} {g : FileState → FileState} {i : Nat}
    {f : FileState} (h : f ∈ modifyFile fs i g) : (∃ f0 ∈ fs, f = g f0) ∨ f ∈ fs := by
  induction fs generalizing i with
  | nil => simp [modifyFile] at h
  | cons f0 fs ih =>
    cases i with
    | zero =>
      simp [modifyFile] at h
      rcases h with h | h
      · exact Or.inl ⟨f0, by simp, h⟩
      · exact Or.inr (List.mem_cons_of_mem _ h)
    | succ i =>
      simp [modifyFile] at h
      rcases h with h | h
      · simp [h]
      · rcases ih h with ⟨f1, hf1, he⟩ | h'
        · exact Or.inl ⟨f1, List.mem_cons_of_mem _ hf1, he⟩
        · exact Or.inr (List.mem_cons_of_mem _ h')

theorem fileAt_eq {fs : List FileState} {i : Nat} {f : FileState}
    (h : fs[i]? = some f) : fileAt fs i = f := by
  simp [fileAt, h]

theorem recomputeStatus_ne_cwe (fs : List FileState) :
    recomputeStatus fs ≠ "completed_with_errors" := by
  unfold recomputeStatus
  by_cases hall : (fs.all fun f => f.status == "completed") = true
  · by_cases hany : (fs.any fun f => f.status == "error") = true
    · exfalso
      obtain ⟨f, hf, he⟩ := List.any_eq_true.mp hany
      have hc := List.all_eq_true.mp hall f hf
      rw [beq_iff_eq] at he hc
      rw [hc] at he
      exact absurd he (by decide)
    · simp only [hall, hany, if_true, if_false, Bool.false_eq_true]
      decide
  · simp only [hall, if_false, Bool.false_eq_true]
    decide

theorem recomputeStatus_valid (fs : List FileState) :
    validTaskStatus (recomputeStatus fs) := by
  unfold recomputeStatus validTaskStatus
  by_cases hall : (fs.all fun f => f.status == "completed") = true <;>
    by_cases hany : (fs.any fun f => f.status == "error") = true <;>
      simp [hall, hany]

/-! ### Helper lemmas: updateFileState, enqueue, AddTask -/

theorem updateFileState_none {m : Manager} {taskID : String} {index : Int}
    {status errMsg : String} {now : Nat}
    (h : lookupTask m.tasks taskID = none) :
    m.updateFileState taskID index status errMsg now = m := by
  simp [Manager.updateFileState, h]

theorem updateFileState_oob {m : Manager} {taskID : String} {task : Task}
    {index : Int} {status errMsg : String} {now : Nat}
    (h : lookupTask m.tasks taskID = some task)
    (hb : index < 0 ∨ (task.files.length : Int) ≤ index) :
    m.updateFileState taskID index status errMsg now = m := by
  simp [Manager.updateFileState, h, hb]

theorem updateFileState_ok {m : Manager} {taskID : String} {task : Task}
    {index : Int} {status errMsg : String} {now : Nat}
    (h : lookupTask m.tasks taskID = some task)
    (h0 : 0 ≤ index) (hl : index < (task.files.length : Int)) :
    m.updateFileState taskID index status errMsg now =
      { m with tasks := storeTask m.tasks taskID (
          { task with
            files := modifyFile task.files index.toNat
              fun f => { f with status := status, error := errMsg }
            updatedAt := now
            status := recomputeStatus (modifyFile task.files index.toNat
              fun f => { f with status := status, error := errMsg }) }) } := by
  have hb : ¬ (index < 0 ∨ (task.files.length : Int) ≤ index) := by omega
  simp [Manager.updateFileState, h, hb]

theorem enqueueJob_tasks {m : Manager} {id : String} {t : Task} {now : Nat}
    (h : lookupTask m.tasks id = some t)
    (hp : ∀ f ∈ t.files, f.status = "pending")
    (hu : t.updatedAt = now) (i : Int) :
    (m.enqueueJob id i now).tasks = m.tasks ∧
      (m.enqueueJob id i now).draining = m.draining := by
  unfold Manager.enqueueJob
  rw [h]
  dsimp only
  by_cases hb : i < 0 ∨ (t.files.length : Int) ≤ i
  · simp [hb]
  · have hlt : i.toNat < t.files.length := by omega
    have hf : t.files[i.toNat]? = some t.files[i.toNat] := List.getElem?_eq_getElem hlt
    have hmem : t.files[i.toNat] ∈ t.files := List.getElem_mem hlt
    have hst : (fileAt t.files i.toNat).status = "pending" := by
      rw [fileAt_eq hf]; exact hp _ hmem
    have hne : (fileAt t.files i.toNat).status ≠ "completed" := by
      rw [hst]; decide
    have hmod : modifyFile t.files i.toNat (fun f => { f with status := "pending" }) = t.files := by
      refine modifyFile_id _ fun f hf => ?_
      have := hp f hf
      cases f
      simp_all
    rw [if_neg hb, if_pos hne]
    constructor
    · show storeTask m.tasks id _ = m.tasks
      rw [hmod, ← hu]
      exact storeTask_self h
    · rfl

theorem enqueueFrom_tasks {m : Manager} {id : String} {t : Task} {now : Nat}
    (h : lookupTask m.tasks id = some t)
    (hp : ∀ f ∈ t.files, f.status = "pending")
    (hu : t.updatedAt = now) (i k : Nat) :
    (Manager.enqueueFrom now id m i k).tasks = m.tasks := by
  induction k generalizing m i with
  | zero => rfl
  | succ k ih =>
    have h1 := enqueueJob_tasks h hp hu (i : Int)
    show (Manager.enqueueFrom now id (m.enqueueJob id (i : Int) now) (i + 1) k).tasks = m.tasks
    rw [ih (m := m.enqueueJob id (i : Int) now) (i := i + 1), h1.1]
    rw [h1.1]
    exact h

theorem AddTask_ok (m : Manager) (urls : List String) (id : String) (now : Nat)
    (h : urls ≠ []) :
    ∃ m', m.AddTask urls id now =
        .ok (m', { id := id
                   files := urls.map fun u => { url := u, status := "pending", error := "" }
                   status := "pending", createdAt := now, updatedAt := now }) ∧
      lookupTask m'.tasks id =
        some { id := id
               files := urls.map fun u => { url := u, status := "pending", error := "" }
               status := "pending", createdAt := now, updatedAt := now } ∧
      ∀ id', id' ≠ id → lookupTask m'.tasks id' = lookupTask m.tasks id' := by
  have hlen : ¬ urls.length = 0 := by simpa using h
  set t : Task :=
    { id := id
      files := urls.map fun u => { url := u, status := "pending", error := "" }
      status := "pending", createdAt := now, updatedAt := now } with ht
  set m1 : Manager := { m with tasks := storeTask m.tasks id t } with hm1
  have hlk : lookupTask m1.tasks id = some t := by
    simp [hm1, lookup_storeTask]
  have hp : ∀ f ∈ t.files, f.status = "pending" := by
    intro f hf
    simp [ht] at hf
    obtain ⟨u, _, he⟩ := hf
    simp [← he]
  have hu : t.updatedAt = now := rfl
  have hbase : ∀ id', id' ≠ id → lookupTask m1.tasks id' = lookupTask m.tasks id' := by
    intro id' hne
    rw [hm1]
    show lookupTask (storeTask m.tasks id t) id' = _
    rw [lookup_storeTask, if_neg fun h' => hne h'.symm]
  by_cases hd : m1.draining
  · refine ⟨m1, ?_, hlk, hbase⟩
    have hd' : m.draining = true := hd
    simp [Manager.AddTask, hlen, ht, hm1, hd']
  · refine ⟨Manager.enqueueFrom now id m1 0 t.files.length, ?_, ?_, ?_⟩
    · have hd' : m.draining = false := by simpa [hm1] using hd
      simp [Manager.AddTask, hlen, ht, hm1, hd']
    · rw [enqueueFrom_tasks hlk hp hu]
      exact hlk
    · intro id' hne
      rw [enqueueFrom_tasks hlk hp hu]
      exact hbase id' hne

/-! ### Helper lemmas: snapshot loading -/

theorem loadFiles_files (id : String) (fs : List FileState) (idx : Int) :
    (loadFiles id fs idx).1 =
      fs.map fun f =>
        if f.status ≠ "completed" then { f with status := "pending", error := "" }
        else f := by
  induction fs generalizing idx with
  | nil => rfl
  | cons f fs ih =>
    by_cases hc : f.status ≠ "completed"
    · simp [loadFiles, hc, ih]
    · have hcc : f.status = "completed" := not_not.mp hc
      simp [loadFiles, hc, hcc, ih]

theorem loadFiles_jobs (id : String) (fs : List FileState) (idx : Int) :
    (loadFiles id fs idx).2 =
      (notCompletedIndices fs idx).map fun i => { taskID := id, fileIndex := i } := by
  induction fs generalizing idx with
  | nil => rfl
  | cons f fs ih =>
    by_cases hc : f.status ≠ "completed" <;>
      simp [loadFiles, notCompletedIndices, hc, ih]

theorem countNotCompleted_cons (f : FileState) (fs : List FileState) :
    countNotCompleted (f :: fs) =
      if f.status ≠ "completed" then countNotCompleted fs + 1
      else countNotCompleted fs := by
  by_cases hc : f.status ≠ "completed" <;> simp [countNotCompleted, List.filter_cons, hc]

theorem notCompletedIndices_length (fs : List FileState) (idx : Int) :
    (notCompletedIndices fs idx).length = countNotCompleted fs := by
  induction fs generalizing idx with
  | nil => rfl
  | cons f fs ih =>
    rw [countNotCompleted_cons]
    by_cases hc : f.status ≠ "completed" <;> simp [notCompletedIndices, hc, ih]

theorem LoadFromSnapshot_lookup_of_not_mem {snap : List (String × Task)} {id : String}
    (h : id ∉ snap.map Prod.fst) (m : Manager) (now : Nat) :
    lookupTask (Manager.LoadFromSnapshot m snap now).tasks id = lookupTask m.tasks id := by
  induction snap generalizing m with
  | nil => rfl
  | cons p rest ih =>
    obtain ⟨k, u⟩ := p
    simp only [List.map_cons, List.mem_cons, not_or] at h
    simp only [Manager.LoadFromSnapshot]
    rw [ih h.2]
    show lookupTask (storeTask m.tasks k (loadTask k u now).1) id = _
    rw [lookup_storeTask, if_neg fun he => h.1 he.symm]

theorem LoadFromSnapshot_lookup_of_mem {snap : List (String × Task)} {id : String}
    {t : Task} (hnd : (snap.map Prod.fst).Nodup) (hm : (id, t) ∈ snap)
    (m : Manager) (now : Nat) :
    lookupTask (Manager.LoadFromSnapshot m snap now).tasks id =
      some (loadTask id t now).1 := by
  induction snap generalizing m with
  | nil => simp at hm
  | cons p rest ih =>
    obtain ⟨k, u⟩ := p
    simp only [List.map_cons, List.nodup_cons] at hnd
    rcases List.mem_cons.mp hm with he | hmem
    · injection he with h1 h2
      subst h1; subst h2
      simp only [Manager.LoadFromSnapshot]
      rw [LoadFromSnapshot_lookup_of_not_mem hnd.1]
      show lookupTask (storeTask m.tasks id (loadTask id t now).1) id = _
      rw [lookup_storeTask, if_pos rfl]
    · simp only [Manager.LoadFromSnapshot]
      exact ih hnd.2 hmem _

theorem LoadFromSnapshot_status_of_mem {snap : List (String × Task)} {id : String}
    (hm : ∃ t, (id, t) ∈ snap) (m : Manager) (now : Nat) :
    ∃ t', lookupTask (Manager.LoadFromSnapshot m snap now).tasks id = some t' ∧
      t'.status = "in‑progress" := by
  induction snap generalizing m with
  | nil => obtain ⟨t, ht⟩ := hm; simp at ht
  | cons p rest ih =>
    obtain ⟨k, u⟩ := p
    by_cases hr : ∃ t, (id, t) ∈ rest
    · simp only [Manager.LoadFromSnapshot]
      exact ih hr _
    · obtain ⟨t, ht⟩ := hm
      rcases List.mem_cons.mp ht with he | hmem
      · injection he with h1 h2
        subst h1; subst h2
        have hnr : id ∉ rest.map Prod.fst := by
          intro hmem'
          obtain ⟨⟨a, b⟩, hq, he2⟩ := List.mem_map.mp hmem'
          have he3 : a = id := he2
          subst he3
          exact hr ⟨b, hq⟩
        simp only [Manager.LoadFromSnapshot]
        rw [LoadFromSnapshot_lookup_of_not_mem hnr]
        show ∃ t', lookupTask (storeTask m.tasks id (loadTask id t now).1) id = some t' ∧ _
        rw [lookup_storeTask, if_pos rfl]
        exact ⟨_, rfl, rfl⟩
      · exact absurd ⟨t, hmem⟩ hr

theorem LoadFromSnapshot_jobs (m : Manager) (snap : List (String × Task)) (now : Nat) :
    (Manager.LoadFromSnapshot m snap now).jobs =
      m.jobs ++ (snap.map fun p => (loadTask p.1 p.2 now).2).flatten := by
  induction snap generalizing m with
  | nil => simp [Manager.LoadFromSnapshot]
  | cons p rest ih =>
    obtain ⟨k, u⟩ := p
    simp only [Manager.LoadFromSnapshot]
    rw [ih]
    simp [List.append_assoc]

/-! ### Helper lemmas: the capacity-aware loader -/

theorem loadFilesB_spec (cap : Nat) (id : String) :
    ∀ (fs : List FileState) (idx : Int) (js : List Job),
      (∀ r, loadFilesB cap id fs idx js = some r →
        r.2.length = js.length + countNotCompleted fs) ∧
      ((loadFilesB cap id fs idx js).isSome ↔
        (countNotCompleted fs = 0 ∨ js.length + countNotCompleted fs ≤ cap)) := by
  intro fs
  induction fs with
  | nil =>
    intro idx js
    constructor
    · intro r h
      simp [loadFilesB] at h
      simp [← h, countNotCompleted]
    · simp [loadFilesB, countNotCompleted]
  | cons f fs ih =>
    intro idx js
    by_cases hc : f.status ≠ "completed"
    · by_cases hq : js.length < cap
      · have he : enqueueB cap js { taskID := id, fileIndex := idx } =
            some (js ++ [{ taskID := id, fileIndex := idx }]) := by
          simp [enqueueB, hq]
        have hunf : loadFilesB cap id (f :: fs) idx js =
            (loadFilesB cap id fs (idx + 1)
                (js ++ [{ taskID := id, fileIndex := idx }])).map
              fun r => ({ f with status := "pending", error := "" } :: r.1, r.2) := by
          simp only [loadFilesB, if_pos hc, he]
        have ihs := ih (idx + 1) (js ++ [{ taskID := id, fileIndex := idx }])
        have hcnt : countNotCompleted (f :: fs) = countNotCompleted fs + 1 := by
          rw [countNotCompleted_cons, if_pos hc]
        constructor
        · intro r h
          rw [hunf] at h
          cases hrec : loadFilesB cap id fs (idx + 1)
              (js ++ [{ taskID := id, fileIndex := idx }]) with
          | none => rw [hrec] at h; exact absurd h (by simp)
          | some r' =>
            rw [hrec] at h
            have hr' : r = ({ f with status := "pending", error := "" } :: r'.1, r'.2) :=
              (Option.some_inj.mp h).symm
            have hlen := ihs.1 r' hrec
            rw [hr', hcnt]
            simp only
            rw [hlen]
            simp
            omega
        · rw [hunf, hcnt]
          cases hrec : loadFilesB cap id fs (idx + 1)
              (js ++ [{ taskID := id, fileIndex := idx }]) with
          | none =>
            have h2 := ihs.2
            rw [hrec] at h2
            simp only [Option.isSome_none, Bool.false_eq_true, false_iff, not_or,
              not_le] at h2
            simp only [List.length_append, List.length_cons, List.length_nil] at h2
            simp
            omega
          | some r' =>
            have h2 := ihs.2
            rw [hrec] at h2
            simp only [Option.isSome_some, true_iff] at h2
            simp only [List.length_append, List.length_cons, List.length_nil] at h2
            simp
            omega
      · have he : enqueueB cap js { taskID := id, fileIndex := idx } = none := by
          simp [enqueueB, hq]
        have hunf : loadFilesB cap id (f :: fs) idx js = none := by
          simp only [loadFilesB, if_pos hc, he]
        have hcnt : countNotCompleted (f :: fs) = countNotCompleted fs + 1 := by
          rw [countNotCompleted_cons, if_pos hc]
        constructor
        · intro r h
          rw [hunf] at h
          exact absurd h (by simp)
        · rw [hunf, hcnt]
          simp only [Option.isSome_none, Bool.false_eq_true, false_iff, not_or, not_le]
          omega
    · have hunf : loadFilesB cap id (f :: fs) idx js =
          (loadFilesB cap id fs (idx + 1) js).map fun r => (f :: r.1, r.2) := by
        simp only [loadFilesB, if_neg hc]
      have ihs := ih (idx + 1) js
      have hcnt : countNotCompleted (f :: fs) = countNotCompleted fs := by
        rw [countNotCompleted_cons, if_neg hc]
      constructor
      · intro r h
        rw [hunf] at h
        cases hrec : loadFilesB cap id fs (idx + 1) js with
        | none => rw [hrec] at h; exact absurd h (by simp)
        | some r' =>
          rw [hrec] at h
          have hr' : r = (f :: r'.1, r'.2) := (Option.some_inj.mp h).symm
          have hlen := ihs.1 r' hrec
          rw [hr', hcnt]
          simpa using hlen
      · rw [hunf, hcnt]
        cases hrec : loadFilesB cap id fs (idx + 1) js with
        | none =>
          have h2 := ihs.2
          rw [hrec] at h2
          simpa using h2
        | some r' =>
          have h2 := ihs.2
          rw [hrec] at h2
          simpa using h2

theorem snapshotJobCount_cons (p : String × Task) (rest : List (String × Task)) :
    snapshotJobCount (p :: rest) =
      countNotCompleted p.2.files + snapshotJobCount rest := by
  simp [snapshotJobCount]

theorem LoadFromSnapshotB_isSome :
    ∀ (snap : List (String × Task)) (m : Manager) (now : Nat),
      (m.LoadFromSnapshotB snap now).isSome ↔
        (snapshotJobCount snap = 0 ∨
          m.jobs.length + snapshotJobCount snap ≤ m.queueSize) := by
  intro snap
  induction snap with
  | nil =>
    intro m now
    simp [Manager.LoadFromSnapshotB, snapshotJobCount]
  | cons p rest ih =>
    intro m now
    obtain ⟨k, u⟩ := p
    simp only [Manager.LoadFromSnapshotB]
    rw [snapshotJobCount_cons]
    cases he : loadFilesB m.queueSize k u.files 0 m.jobs with
    | none =>
      have h2 := (loadFilesB_spec m.queueSize k u.files 0 m.jobs).2
      rw [he] at h2
      simp only [Option.isSome_none, Bool.false_eq_true, false_iff, not_or, not_le] at h2
      simp only [Option.isSome_none, Bool.false_eq_true, false_iff, not_or, not_le]
      omega
    | some r =>
      have hlen := (loadFilesB_spec m.queueSize k u.files 0 m.jobs).1 r he
      have h2 := (loadFilesB_spec m.queueSize k u.files 0 m.jobs).2
      rw [he] at h2
      simp only [Option.isSome_some, true_iff] at h2
      rw [ih]
      simp only
      rw [hlen]
      constructor
      · intro h
        rcases h with h | h
        · rcases h2 with h2 | h2
          · omega
          · omega
        · omega
      · intro h
        rcases h with h | h
        · omega
        · omega

/-! ### Helper lemmas: the status-string invariant -/

theorem statusInv_newManager (q : Nat) : StatusInv (NewManager q) := by
  intro p hp
  simp [NewManager] at hp

theorem statusInv_storeTask {m : Manager} (h : StatusInv m) {id : String} {t : Task}
    (ht : validTaskStatus t.status) (hf : ∀ f ∈ t.files, validFileStatus f.status)
    {m' : Manager} (he : m'.tasks = storeTask m.tasks id t) : StatusInv m' := by
  intro p hp
  rw [he] at hp
  rcases mem_storeTask hp with heq | hmem
  · rw [heq]
    exact ⟨ht, hf⟩
  · exact h p hmem

theorem statusInv_enqueueJob {m : Manager} (h : StatusInv m) (id : String)
    (i : Int) (now : Nat) : StatusInv (m.enqueueJob id i now) := by
  cases hl : lookupTask m.tasks id with
  | none =>
    unfold Manager.enqueueJob
    rw [hl]
    exact h
  | some task =>
    have hv := h (id, task) (lookupTask_mem hl)
    unfold Manager.enqueueJob
    rw [hl]
    dsimp only
    by_cases hb : i < 0 ∨ (task.files.length : Int) ≤ i
    · rw [if_pos hb]; exact h
    · rw [if_neg hb]
      by_cases hs : (fileAt task.files i.toNat).status ≠ "completed"
      · rw [if_pos hs]
        refine statusInv_storeTask h ?_ ?_ rfl
        · exact hv.1
        · intro f hf
          rcases mem_modifyFile hf with ⟨f0, _, heq⟩ | hmem
          · rw [heq]; exact Or.inl rfl
          · exact hv.2 f hmem
      · rw [if_neg hs]; exact h

theorem statusInv_enqueueFrom {m : Manager} (h : StatusInv m) (now : Nat)
    (id : String) (i k : Nat) : StatusInv (Manager.enqueueFrom now id m i k) := by
  induction k generalizing m i with
  | zero => exact h
  | succ k ih => exact ih (statusInv_enqueueJob h id (i : Int) now) (i + 1)

theorem statusInv_updateFileState {m : Manager} (h : StatusInv m) (id : String)
    (i : Int) {st : String} (hst : validFileStatus st) (em : String) (now : Nat) :
    StatusInv (m.updateFileState id i st em now) := by
  cases hl : lookupTask m.tasks id with
  | none => rw [updateFileState_none hl]; exact h
  | some task =>
    by_cases hb : i < 0 ∨ (task.files.length : Int) ≤ i
    · rw [updateFileState_oob hl hb]; exact h
    · have h0 : 0 ≤ i := by omega
      have hlen : i < (task.files.length : Int) := by omega
      rw [updateFileState_ok hl h0 hlen]
      refine statusInv_storeTask h (recomputeStatus_valid _) ?_ rfl
      intro f hf
      rcases mem_modifyFile hf with ⟨f0, _, heq⟩ | hmem
      · rw [heq]; exact hst
      · exact (h (id, task) (lookupTask_mem hl)).2 f hmem

theorem statusInv_processJobMark {m : Manager} (h : StatusInv m) (job : Job)
    (now : Nat) : StatusInv (m.processJobMark job now) := by
  cases hl : lookupTask m.tasks job.taskID with
  | none =>
    unfold Manager.processJobMark
    rw [hl]
    exact h
  | some task =>
    have hv := h (job.taskID, task) (lookupTask_mem hl)
    unfold Manager.processJobMark
    rw [hl]
    dsimp only
    by_cases hb : job.fileIndex < 0 ∨ (task.files.length : Int) ≤ job.fileIndex
        ∨ (fileAt task.files job.fileIndex.toNat).status = "completed"
    · rw [if_pos hb]; exact h
    · rw [if_neg hb]
      refine statusInv_storeTask h (Or.inr (Or.inl rfl)) ?_ rfl
      intro f hf
      rcases mem_modifyFile hf with ⟨f0, _, heq⟩ | hmem
      · rw [heq]; exact Or.inr (Or.inl rfl)
      · exact hv.2 f hmem

theorem statusInv_processJobFinish {m : Manager} (h : StatusInv m) (job : Job)
    (result : Option String) (now : Nat) :
    StatusInv (m.processJobFinish job result now) := by
  cases result with
  | none =>
    exact statusInv_updateFileState h job.taskID job.fileIndex
      (Or.inr (Or.inr (Or.inl rfl))) "" now
  | some msg =>
    exact statusInv_updateFileState h job.taskID job.fileIndex
      (Or.inr (Or.inr (Or.inr rfl))) msg now

theorem statusInv_processJob {m : Manager} (h : StatusInv m) (job : Job)
    (result : Option String) (t1 t2 : Nat) :
    StatusInv (m.processJob job result t1 t2) := by
  cases hl : lookupTask m.tasks job.taskID with
  | none =>
    unfold Manager.processJob
    rw [hl]
    exact h
  | some task =>
    have hv := h (job.taskID, task) (lookupTask_mem hl)
    unfold Manager.processJob
    rw [hl]
    dsimp only
    by_cases hb : job.fileIndex < 0 ∨ (task.files.length : Int) ≤ job.fileIndex
        ∨ (fileAt task.files job.fileIndex.toNat).status = "completed"
    · rw [if_pos hb]; exact h
    · rw [if_neg hb]
      have h1 : StatusInv { m with tasks := storeTask m.tasks job.taskID (
          { task with
            files := modifyFile task.files job.fileIndex.toNat
              fun f => { f with status := "in‑progress" }
            updatedAt := t1
            status := "in‑progress" }) } := by
        refine statusInv_storeTask h ?_ ?_ rfl
        · exact Or.inr (Or.inl rfl)
        · intro f hf
          rcases mem_modifyFile hf with ⟨f0, _, heq⟩ | hmem
          · rw [heq]; exact Or.inr (Or.inl rfl)
          · exact hv.2 f hmem
      cases result with
      | none =>
        exact statusInv_updateFileState h1 job.taskID job.fileIndex
          (Or.inr (Or.inr (Or.inl rfl))) "" t2
      | some msg =>
        exact statusInv_updateFileState h1 job.taskID job.fileIndex
          (Or.inr (Or.inr (Or.inr rfl))) msg t2

theorem statusInv_AddTask {m : Manager} (h : StatusInv m) (urls : List String)
    (id : String) (now : Nat) {m' : Manager} {t : Task}
    (hok : m.AddTask urls id now = .ok (m', t)) : StatusInv m' := by
  unfold Manager.AddTask at hok
  by_cases hlen : urls.length = 0
  · rw [if_pos hlen] at hok
    exact absurd hok (by simp)
  · rw [if_neg hlen] at hok
    dsimp only at hok
    injection hok with hok
    have hm' : m' = _ := (Prod.mk.injEq _ _ _ _ |>.mp hok.symm).1
    rw [hm']
    have h1 : StatusInv { m with tasks := storeTask m.tasks id (
        { id := id
          files := urls.map fun u => { url := u, status := "pending", error := "" }
          status := "pending", createdAt := now, updatedAt := now }) } := by
      refine statusInv_storeTask h (Or.inl rfl) ?_ rfl
      intro f hf
      obtain ⟨u, _, he⟩ := List.mem_map.mp hf
      rw [← he]
      exact Or.inl rfl
    by_cases hd : m.draining = true
    · rw [if_pos hd]
      exact h1
    · rw [if_neg hd]
      exact statusInv_enqueueFrom h1 now id 0 _

theorem statusInv_load (snap : List (String × Task)) :
    ∀ {m : Manager}, StatusInv m → ∀ now, StatusInv (m.LoadFromSnapshot snap now) := by
  induction snap with
  | nil =>
    intro m h now
    exact h
  | cons p rest ih =>
    intro m h now
    obtain ⟨k, u⟩ := p
    show StatusInv (Manager.LoadFromSnapshot _ rest now)
    refine ih ?_ now
    refine statusInv_storeTask h (Or.inr (Or.inl rfl)) ?_ rfl
    intro f hf
    have hfl : (loadTask k u now).1.files = (loadFiles k u.files 0).1 := rfl
    rw [hfl, loadFiles_files] at hf
    obtain ⟨f0, _, heq⟩ := List.mem_map.mp hf
    by_cases hc : f0.status ≠ "completed"
    · rw [← heq, if_pos hc]
      exact Or.inl rfl
    · rw [← heq, if_neg hc]
      exact Or.inr (Or.inr (Or.inl (not_not.mp hc)))

theorem statusInv_applyOp {m : Manager} (h : StatusInv m) (op : Op) :
    StatusInv (applyOp m op) := by
  cases op with
  | create raw id now =>
    dsimp only [applyOp]
    cases hc : createTask m raw id now with
    | error e => exact h
    | ok r =>
      obtain ⟨m', t⟩ := r
      exact statusInv_AddTask h (cleanURLs raw) id now hc
  | mark job now => exact statusInv_processJobMark h job now
  | finish job result now => exact statusInv_processJobFinish h job result now
  | process job result t1 t2 => exact statusInv_processJob h job result t1 t2
  | load snap now => exact statusInv_load snap h now

/-! ### Claim theorems -/

/-- Claim C1 (code bug): in the spec's 3-file scenario where exactly the
second file fails, the final aggregate status recomputed by
`updateFileState` is "in‑progress", not the claimed "completed_with_errors";
indeed the recomputation can never produce "completed_with_errors", because
`allDone` requires every file "completed" while `anyErrors` requires some
file "error" — the branch at part_001 line 194 is unreachable. -/
theorem c1_all_terminal_with_error_status :
    ((((runOps 100 [.create ["u1", "u2", "u3"] "t1" 1,
        .process { taskID := "t1", fileIndex := 0 } none 2 3,
        .process { taskID := "t1", fileIndex := 1 } (some "boom") 4 5,
        .process { taskID := "t1", fileIndex := 2 } none 6 7]).GetTask "t1").map
        fun t => (t.status, t.files.map FileState.status, t.files.map FileState.error)) =
      some ("in‑progress", ["completed", "error", "completed"], ["", "boom", ""])) ∧
    ("in‑progress" : String) ≠ "completed_with_errors" ∧
    ∀ fs : List FileState, recomputeStatus fs ≠ "completed_with_errors" :=
  ⟨by decide, by decide, recomputeStatus_ne_cwe⟩

/-- Claim C2 counterexample: directly after `AddTask` of one URL the stored
aggregate status is "pending", while the spec's derivation rule applied to
the same file sequence (one pending file) yields "in-progress". -/
theorem c2_counterexample :
    ((runOps 100 [.create ["u"] "t1" 1]).GetTask "t1").map Task.status = some "pending" ∧
    (((runOps 100 [.create ["u"] "t1" 1]).GetTask "t1").map
      fun t => specDerivedStatus t.files) = some "in-progress" ∧
    ("pending" : String) ≠ "in-progress" :=
  ⟨by decide, by decide, by decide⟩

/-- Claim C2 amended: the stored aggregate status matches the code's
recomputation rule (`recomputeStatus`) only directly after a successful
`updateFileState`; `AddTask` stores the fixed string "pending" and
`LoadFromSnapshot` forces "in‑progress" for every loaded task regardless of
its file statuses, so the status is not globally the spec-derived function
of the file sequence. -/
theorem c2_amended :
    (∀ (m : Manager) (id : String) (task : Task) (index : Int) (st em : String) (now : Nat),
      lookupTask m.tasks id = some task → 0 ≤ index → index < (task.files.length : Int) →
      ∃ task', lookupTask (m.updateFileState id index st em now).tasks id = some task' ∧
        task'.status = recomputeStatus task'.files) ∧
    (∀ (m : Manager) (urls : List String) (id : String) (now : Nat)
        (m' : Manager) (t : Task),
      m.AddTask urls id now = .ok (m', t) →
      ∃ task', lookupTask m'.tasks id = some task' ∧ task'.status = "pending") ∧
    (∀ (m : Manager) (snap : List (String × Task)) (now : Nat) (id : String),
      (∃ t, (id, t) ∈ snap) →
      ∃ task', lookupTask (m.LoadFromSnapshot snap now).tasks id = some task' ∧
        task'.status = "in‑progress") := by
  refine ⟨?_, ?_, ?_⟩
  · intro m id task index st em now h h0 hl
    rw [updateFileState_ok h h0 hl]
    refine ⟨{ task with
        files := modifyFile task.files index.toNat
          fun f => { f with status := st, error := em }
        updatedAt := now
        status := recomputeStatus (modifyFile task.files index.toNat
          fun f => { f with status := st, error := em }) }, ?_, rfl⟩
    show lookupTask (storeTask m.tasks id _) id = _
    rw [lookup_storeTask, if_pos rfl]
  · intro m urls id now m' t hok
    have hne : urls ≠ [] := by
      intro he
      rw [he] at hok
      simp [Manager.AddTask] at hok
    obtain ⟨m'', hok', hlk, _⟩ := AddTask_ok m urls id now hne
    rw [hok'] at hok
    injection hok with hok
    have hm : m'' = m' := congrArg Prod.fst hok
    rw [← hm]
    exact ⟨_, hlk, rfl⟩
  · intro m snap now id hm
    exact LoadFromSnapshot_status_of_mem hm m now

/-- Claim C3 counterexample: a snapshot task whose single file is already
completed ("loaded entirely unchanged" per the claim) comes back with its
aggregate status forced to "in‑progress" and its `UpdatedAt` bumped to the
load instant (part_001 lines 278 and 287 run for every loaded task), though
indeed no job is enqueued for it. -/
theorem c3_counterexample :
    ((((NewManager 100).LoadFromSnapshot
        [("t9", { id := "t9", files := [{ url := "u", status := "completed", error := "" }],
                  status := "completed", createdAt := 5, updatedAt := 5 })] 9).GetTask
        "t9").map fun t => (t.status, t.updatedAt)) = some ("in‑progress", 9) ∧
    (("in‑progress", 9) : String × Nat) ≠ ("completed", 5) ∧
    ((NewManager 100).LoadFromSnapshot
        [("t9", { id := "t9", files := [{ url := "u", status := "completed", error := "" }],
                  status := "completed", createdAt := 5, updatedAt := 5 })] 9).jobs = [] :=
  ⟨by decide, by decide, by decide⟩

/-- Claim C3 amended: `LoadFromSnapshot` resets every non-completed file to
pending with its error cleared and enqueues exactly one job per such file
(in index order), keeps completed files as they are, enqueues nothing for a
fully-completed task — but forces every loaded task's status to
"in‑progress" and sets its `UpdatedAt` to the load instant, fully-completed
tasks included (only `CreatedAt`, ids and urls survive unchanged). -/
theorem c3_amended :
    (∀ (id : String) (t : Task) (now : Nat),
      (loadTask id t now).1.files =
        (t.files.map fun f =>
          if f.status ≠ "completed" then { f with status := "pending", error := "" }
          else f) ∧
      (loadTask id t now).2 =
        ((notCompletedIndices t.files 0).map fun i => { taskID := id, fileIndex := i }) ∧
      (loadTask id t now).2.length = countNotCompleted t.files ∧
      (loadTask id t now).1.status = "in‑progress" ∧
      (loadTask id t now).1.updatedAt = now ∧
      (loadTask id t now).1.createdAt = t.createdAt ∧
      (loadTask id t now).1.id = t.id ∧
      (countNotCompleted t.files = 0 → (loadTask id t now).2 = [])) ∧
    (∀ (m : Manager) (snap : List (String × Task)) (now : Nat),
      (Manager.LoadFromSnapshot m snap now).jobs =
        m.jobs ++ (snap.map fun p => (loadTask p.1 p.2 now).2).flatten) ∧
    (∀ (m : Manager) (snap : List (String × Task)) (now : Nat) (id : String) (t : Task),
      (snap.map Prod.fst).Nodup → (id, t) ∈ snap →
      lookupTask (Manager.LoadFromSnapshot m snap now).tasks id =
        some (loadTask id t now).1) := by
  refine ⟨?_, LoadFromSnapshot_jobs, ?_⟩
  · intro id t now
    have hj : (loadTask id t now).2 =
        (notCompletedIndices t.files 0).map fun i => { taskID := id, fileIndex := i } :=
      loadFiles_jobs id t.files 0
    have hlen : (loadTask id t now).2.length = countNotCompleted t.files := by
      rw [hj]
      simp [notCompletedIndices_length]
    refine ⟨loadFiles_files id t.files 0, hj, hlen, rfl, rfl, rfl, rfl, ?_⟩
    intro h0
    have : (loadTask id t now).2.length = 0 := by rw [hlen, h0]
    exact List.length_eq_zero.mp this
  · intro m snap now id t hnd hm
    exact LoadFromSnapshot_lookup_of_mem hnd hm m now

/-- Claim C4 counterexample: the status the code stores while a file is
being downloaded is "in‑progress" with U+2011 NON-BREAKING HYPHEN, which is
not an element of the claim's ASCII-hyphen set (for the per-file status or
the task status). -/
theorem c4_counterexample :
    ((((runOps 100 [.create ["u1", "u2"] "t1" 1,
        .mark { taskID := "t1", fileIndex := 0 } 2]).GetTask "t1").map
        fun t => (t.status, (fileAt t.files 0).status)) =
      some ("in‑progress", "in‑progress")) ∧
    ¬ (("in‑progress" : String) = "pending" ∨ ("in‑progress" : String) = "in-progress" ∨
       ("in‑progress" : String) = "completed" ∨ ("in‑progress" : String) = "error") :=
  ⟨by decide, by decide⟩

/-- Claim C4 amended: after any sequence of operations from a fresh
manager, every stored per-file status is in {"pending", "in‑progress",
"completed", "error"} and every stored task status is in {"pending",
"in‑progress", "completed", "completed_with_errors"}, where "in‑progress"
is spelled with U+2011 NON-BREAKING HYPHEN as in the source, not the ASCII
hyphen of the spec's enumerations. -/
theorem c4_amended (queueSize : Nat) (ops : List Op) : StatusInv (runOps queueSize ops) := by
  unfold runOps
  have hfold : ∀ (ops : List Op) (m : Manager), StatusInv m →
      StatusInv (ops.foldl applyOp m) := by
    intro ops
    induction ops with
    | nil => intro m h; exact h
    | cons op rest ih =>
      intro m h
      exact ih _ (statusInv_applyOp h op)
  exact hfold ops _ (statusInv_newManager queueSize)

set_option maxRecDepth 4000 in
/-- Claim C5 counterexample: recovering a snapshot that holds 101 pending
files through a manager whose queue capacity is 100 (main.go's
`jobQueueSize`) blocks forever on the 101st channel send — workers only
start after `LoadFromSnapshot` returns — so recovery never completes
(`none` in the blocking-aware model). -/
theorem c5_counterexample :
    (NewManager 100).LoadFromSnapshotB
      [("t", { id := "t",
               files := List.replicate 101 { url := "u", status := "pending", error := "" },
               status := "in‑progress", createdAt := 0, updatedAt := 0 })] 0 = none := by
  decide

/-- Claim C5 amended: starting from an empty queue (the startup state),
`LoadFromSnapshot` returns if and only if the number of non-completed files
in the snapshot is at most the queue capacity; beyond that the enqueue at
part_001 line 284 blocks forever because recovery runs strictly before
`StartWorkers` (main.go lines 36-38). -/
theorem c5_amended (m : Manager) (snap : List (String × Task)) (now : Nat)
    (h : m.jobs = []) :
    (m.LoadFromSnapshotB snap now).isSome ↔ snapshotJobCount snap ≤ m.queueSize := by
  rw [LoadFromSnapshotB_isSome snap m now, h]
  simp only [List.length_nil, Nat.zero_add]
  omega

/-- Witness for C5's amended theorem at a concrete snapshot: one pending
file against capacity 2. -/
theorem c5_amended_witness :
    ((NewManager 2).LoadFromSnapshotB
        [("t", { id := "t", files := [{ url := "u", status := "pending", error := "" }],
                 status := "pending", createdAt := 0, updatedAt := 0 })] 0).isSome ↔
      snapshotJobCount
          [("t", { id := "t", files := [{ url := "u", status := "pending", error := "" }],
                   status := "pending", createdAt := 0, updatedAt := 0 })] ≤
        (NewManager 2).queueSize :=
  c5_amended (NewManager 2)
    [("t", { id := "t", files := [{ url := "u", status := "pending", error := "" }],
             status := "pending", createdAt := 0, updatedAt := 0 })] 0 rfl

/-- Claim C6: task creation behind the handler's URL cleaning fails with
the input-validation error exactly when the cleaned URL sequence is empty,
and then the store is left untouched; for a non-empty cleaned sequence it
stores and returns a task with one pending `FileState` per cleaned URL (so
the file count equals the cleaned batch size), leaving every other task
unchanged. -/
theorem c6_create_spec :
    (∀ (m : Manager) (raw : List String) (id : String) (now : Nat),
      cleanURLs raw = [] →
        createTask m raw id now = .error "task must contain at least one URL" ∧
        applyOp m (.create raw id now) = m) ∧
    (∀ (m : Manager) (raw : List String) (id : String) (now : Nat),
      cleanURLs raw ≠ [] →
      ∃ m' t, createTask m raw id now = .ok (m', t) ∧
        t.files = ((cleanURLs raw).map fun u => { url := u, status := "pending", error := "" }) ∧
        t.files.length = (cleanURLs raw).length ∧
        (∀ f ∈ t.files, f.url ∈ cleanURLs raw ∧ f.status = "pending") ∧
        t.status = "pending" ∧
        lookupTask m'.tasks id = some t ∧
        ∀ id', id' ≠ id → lookupTask m'.tasks id' = lookupTask m.tasks id') := by
  constructor
  · intro m raw id now hcl
    have h1 : createTask m raw id now = .error "task must contain at least one URL" := by
      unfold createTask Manager.AddTask
      rw [hcl]
      rfl
    refine ⟨h1, ?_⟩
    dsimp only [applyOp]
    rw [h1]
  · intro m raw id now hcl
    obtain ⟨m', hok, hlk, hframe⟩ := AddTask_ok m (cleanURLs raw) id now hcl
    refine ⟨m', _, hok, rfl, by simp, ?_, rfl, hlk, hframe⟩
    intro f hf
    obtain ⟨u, hu, he⟩ := List.mem_map.mp hf
    constructor
    · rw [← he]
      exact hu
    · rw [← he]

/-- Claim C7: `GetTask` returns the stored task (as a copy built by
`deepCopyTask`) together with a found flag when the id is present, `none`
when it is absent, and never an error (`Option` is its whole return type);
`deepCopyTask` rebuilds every field and every file, so the copy equals the
stored value — in this value-level model the returned task shares no state
with the store. -/
theorem c7_get_spec :
    (∀ (m : Manager) (id : String) (t : Task),
      lookupTask m.tasks id = some t → m.GetTask id = some (deepCopyTask t)) ∧
    (∀ (m : Manager) (id : String),
      lookupTask m.tasks id = none → m.GetTask id = none) ∧
    (∀ (m : Manager) (id : String), (m.GetTask id).isSome ↔ (lookupTask m.tasks id).isSome) ∧
    (∀ t : Task, deepCopyTask t = t) := by
  have hmap : ∀ fs : List FileState,
      (fs.map fun f => ({ url := f.url, status := f.status, error := f.error } : FileState)) = fs := by
    intro fs
    induction fs with
    | nil => rfl
    | cons f fs ih =>
      cases f
      simp [ih]
  refine ⟨?_, ?_, ?_, ?_⟩
  · intro m id t h
    simp [Manager.GetTask, h]
  · intro m id h
    simp [Manager.GetTask, h]
  · intro m id
    simp [Manager.GetTask]
  · intro t
    cases t with
    | mk tid files status c u => simp [deepCopyTask, hmap]

/-- Claim C8: `updateFileState` with an unknown task id, a negative index,
or an index at least the file count returns the manager unchanged — no
file state, aggregate status, timestamp, queue entry or sibling task is
modified. -/
theorem c8_update_noop :
    (∀ (m : Manager) (id : String) (index : Int) (st em : String) (now : Nat),
      lookupTask m.tasks id = none → m.updateFileState id index st em now = m) ∧
    (∀ (m : Manager) (id : String) (task : Task) (index : Int) (st em : String) (now : Nat),
      lookupTask m.tasks id = some task →
      (index < 0 ∨ (task.files.length : Int) ≤ index) →
      m.updateFileState id index st em now = m) :=
  ⟨fun _ _ _ _ _ _ h => updateFileState_none h,
    fun _ _ _ _ _ _ _ h hb => updateFileState_oob h hb⟩

/-- Claim C9: `DeriveFileName` returns the last segment of the parsed URL's
path with any query string stripped (`lastSegmentQueryStripped`), and
`file_<index>` exactly when parsing fails, the path is empty or "/", or
that segment is empty; in particular the spec's three examples and a
query-string case evaluate as claimed. -/
theorem c9_deriveFileName :
    (∀ (rawURL : String) (index : Int),
      urlParsePath rawURL = none →
      DeriveFileName rawURL index = "file_" ++ toString index) ∧
    (∀ (rawURL : String) (index : Int) (path : String),
      urlParsePath rawURL = some path →
      (path = "" ∨ path = "/" ∨ lastSegmentQueryStripped path = "") →
      DeriveFileName rawURL index = "file_" ++ toString index) ∧
    (∀ (rawURL : String) (index : Int) (path : String),
      urlParsePath rawURL = some path →
      path ≠ "" → path ≠ "/" → lastSegmentQueryStripped path ≠ "" →
      DeriveFileName rawURL index = lastSegmentQueryStripped path) ∧
    (∀ index : Int, DeriveFileName "https://x/a/b.zip" index = "b.zip") ∧
    DeriveFileName "https://x/" 3 = "file_3" ∧
    DeriveFileName "https://x" 7 = "file_7" ∧
    DeriveFileName "https://x/a/b.zip?v=1" 0 = "b.zip" := by
  refine ⟨?_, ?_, ?_, fun index => rfl, by decide, by decide, by decide⟩
  · intro rawURL index h
    unfold DeriveFileName
    rw [h]
  · intro rawURL index path h hcond
    unfold DeriveFileName
    rw [h]
    dsimp only
    by_cases h2 : path = "" ∨ path = "/"
    · rw [if_pos h2]
    · rw [if_neg h2]
      rcases hcond with h1 | h1 | h1
      · exact absurd (Or.inl h1) h2
      · exact absurd (Or.inr h1) h2
      · have hx : ((breakAtChar '?' ((splitOnChar '/' path.toList).getLastD [])).1).asString
            = "" := h1
        have hname : (breakAtChar '?' ((splitOnChar '/' path.toList).getLastD [])).1 = [] := by
          have hdata := congrArg String.data hx
          simpa [List.asString] using hdata
        rw [if_pos hname]
  · intro rawURL index path h h1 h2 h3
    unfold DeriveFileName
    rw [h]
    dsimp only
    rw [if_neg (by exact fun hor => hor.elim h1 h2)]
    have hname : (breakAtChar '?' ((splitOnChar '/' path.toList).getLastD [])).1 ≠ [] := by
      intro hnil
      apply h3
      show ((breakAtChar '?' ((splitOnChar '/' path.toList).getLastD [])).1).asString = ""
      rw [hnil]
      rfl
    rw [if_neg hname]
    rfl

/-- Claim C10: a successful `updateFileState` changes only the addressed
file's status and error, the task's aggregate status (to the recomputed
value) and its `UpdatedAt`; the file's url, every other file, the task's id
and `CreatedAt`, every other task, and the job queue are unchanged. -/
theorem c10_frame (m : Manager) (id : String) (task : Task) (index : Int)
    (st em : String) (now : Nat)
    (h : lookupTask m.tasks id = some task)
    (h0 : 0 ≤ index) (hl : index < (task.files.length : Int)) :
    ∃ task', lookupTask (m.updateFileState id index st em now).tasks id = some task' ∧
      task'.id = task.id ∧
      task'.createdAt = task.createdAt ∧
      task'.updatedAt = now ∧
      task'.status = recomputeStatus task'.files ∧
      task'.files.length = task.files.length ∧
      (∀ j : Nat, j ≠ index.toNat → task'.files[j]? = task.files[j]?) ∧
      task'.files[index.toNat]? =
        (task.files[index.toNat]?).map (fun f => { f with status := st, error := em }) ∧
      (∀ id', id' ≠ id →
        lookupTask (m.updateFileState id index st em now).tasks id' =
          lookupTask m.tasks id') ∧
      (m.updateFileState id index st em now).jobs = m.jobs ∧
      (m.updateFileState id index st em now).draining = m.draining ∧
      (m.updateFileState id index st em now).queueSize = m.queueSize := by
  rw [updateFileState_ok h h0 hl]
  refine ⟨{ task with
      files := modifyFile task.files index.toNat
        fun f => { f with status := st, error := em }
      updatedAt := now
      status := recomputeStatus (modifyFile task.files index.toNat
        fun f => { f with status := st, error := em }) },
    ?_, rfl, rfl, rfl, rfl, ?_, ?_, ?_, ?_, rfl, rfl, rfl⟩
  · show lookupTask (storeTask m.tasks id _) id = _
    rw [lookup_storeTask, if_pos rfl]
  · exact modifyFile_length task.files index.toNat _
  · intro j hj
    show (modifyFile task.files index.toNat _)[j]? = task.files[j]?
    rw [modifyFile_getElem?, if_neg fun he => hj he.symm]
  · show (modifyFile task.files index.toNat _)[index.toNat]? = _
    rw [modifyFile_getElem?, if_pos rfl]
  · intro id' hne
    show lookupTask (storeTask m.tasks id _) id' = _
    rw [lookup_storeTask, if_neg fun he => hne he.symm]

/-- Witness for C10 at a concrete store: updating file 0 of a one-file
task. -/
theorem c10_frame_witness :
    ∃ task', lookupTask (sampleManager.updateFileState "t" 0 "completed" "" 9).tasks "t" =
        some task' ∧
      task'.id = sampleTask.id ∧
      task'.createdAt = sampleTask.createdAt ∧
      task'.updatedAt = 9 ∧
      task'.status = recomputeStatus task'.files ∧
      task'.files.length = sampleTask.files.length ∧
      (∀ j : Nat, j ≠ (0 : Int).toNat → task'.files[j]? = sampleTask.files[j]?) ∧
      task'.files[(0 : Int).toNat]? =
        (sampleTask.files[(0 : Int).toNat]?).map
          (fun f => { f with status := "completed", error := "" }) ∧
      (∀ id', id' ≠ "t" →
        lookupTask (sampleManager.updateFileState "t" 0 "completed" "" 9).tasks id' =
          lookupTask sampleManager.tasks id') ∧
      (sampleManager.updateFileState "t" 0 "completed" "" 9).jobs = sampleManager.jobs ∧
      (sampleManager.updateFileState "t" 0 "completed" "" 9).draining =
        sampleManager.draining ∧
      (sampleManager.updateFileState "t" 0 "completed" "" 9).queueSize =
        sampleManager.queueSize :=
  c10_frame sampleManager "t" sampleTask 0 "completed" "" 9 (by decide) (by decide) (by decide)

end DM
